import Mathlib

/-!
Verification of the KompAgent Spatial Action Layer.

Shallow embedding of:
* `libs/spatial-agent/src/middleware/device-control.ts` (`validateDeviceCommand`,
  `DEFAULT_CONFIRM_ACTIONS`),
* `libs/spatial-agent/src/middleware/index.ts` (`validateSQLQuery`,
  `DEFAULT_ALLOWED_TABLES`),
* `libs/spatial-agent/src/backends/postgis.ts` (`PostGISBackend.generateSQL`,
  `DeviceBackend.fetch`),
* the trajectory analysis functions (`detectStopPoints`).

JavaScript strings are embedded as `String` / `List Char`; numbers that the
claims compare exactly are embedded as `Int` (millisecond timestamps) and `ℚ`
(speeds, durations in seconds).  The regular expressions of
`validateSQLQuery` are embedded as executable scanners over `List Char` with
the same left-to-right, non-overlapping match semantics as JavaScript
`RegExp.exec` with the `g` flag.
-/

namespace KompAgent

/-- Result record `{ valid: boolean; error?: string }` returned by the two
validators in the middleware. -/
structure ValidationResult where
  valid : Bool
  error : Option String
deriving DecidableEq, Repr

/-! ### Device control middleware (`device-control.ts`) -/

/-- The enumerated action set, `validActions` in `validateDeviceCommand`. -/
def validActions : List String :=
  ["takeoff", "land", "move_to", "return_home", "pause", "resume", "stop",
   "capture_photo", "start_video", "stop_video", "set_altitude", "set_speed",
   "custom"]

/-- `DEFAULT_CONFIRM_ACTIONS` (device-control.ts line 26): "Default critical
actions that require confirmation". -/
def DEFAULT_CONFIRM_ACTIONS : List String :=
  ["takeoff", "land", "return_home", "stop"]

/-- `validateDeviceCommand` (device-control.ts lines 54-89).  Note that the
source function takes only the action and the optional allow-list: it has no
confirmation parameter and no confirmation check. -/
def validateDeviceCommand (action : String) (allowedActions : Option (List String)) :
    ValidationResult :=
  if ¬ validActions.contains action then
    ⟨false, some ("Invalid action: " ++ action ++ ". Valid actions: " ++
      String.intercalate ", " validActions)⟩
  else
    match allowedActions with
    | some la =>
      if ¬ la.contains action then ⟨false, some ("Action not allowed: " ++ action)⟩
      else ⟨true, none⟩
    | none => ⟨true, none⟩

/-! ### Spatial query description (`types.ts`) and SQL generation
(`postgis.ts`, `PostGISBackend.generateSQL`) -/

/-- `timeRange` of `SpatialQuery`: two `Date`s, embedded as millisecond
timestamps (`Date.getTime`). -/
structure TimeRange where
  start : Int
  «end» : Int
deriving DecidableEq, Repr

/-- One `orderBy` entry `{ field, direction }` of `SpatialQuery`. -/
structure OrderByEntry where
  field : String
  direction : String
deriving DecidableEq, Repr

/-- `SpatialQuery` (types.ts).  The `geometry` value is embedded by its
`JSON.stringify` serialization (the only use `generateSQL` makes of it);
`filters` is carried nowhere in `generateSQL` and is omitted. -/
structure SpatialQuery where
  qtype : String
  timeRange : Option TimeRange
  geometry : Option String
  select : Option (List String)
  orderBy : Option (List OrderByEntry)
  limit : Option Int
deriving DecidableEq, Repr

/-- Models `Date.toISOString` as an injective rendering of the millisecond
timestamp; the claims depend only on the serialized literal being spliced
into the statement text, not on the ISO-8601 digit layout. -/
def isoString (t : Int) : String := toString t

/-- `String.toUpperCase`. -/
def upperStr (s : String) : String := String.mk (s.data.map Char.toUpper)

/-- The `SELECT` part of `generateSQL` (postgis.ts lines 94-101). -/
def selectClause (q : SpatialQuery) : String :=
  "SELECT " ++
    match q.select with
    | some fields =>
      if fields.length > 0 then String.intercalate ", " fields else "*"
    | none => "*"

/-- The time-range part of `generateSQL` (postgis.ts lines 107-109): the two
bounds are interpolated into the text, whatever their order. -/
def timeClause (q : SpatialQuery) : String :=
  match q.timeRange with
  | some tr =>
    " AND timestamp BETWEEN '" ++ isoString tr.start ++ "' AND '" ++
      isoString tr.«end» ++ "'"
  | none => ""

/-- The geometry part of `generateSQL` (postgis.ts lines 112-115). -/
def geomClause (q : SpatialQuery) : String :=
  match q.geometry with
  | some geojson => " AND ST_Within(geom, ST_GeomFromGeoJSON('" ++ geojson ++ "'))"
  | none => ""

/-- The `ORDER BY` part of `generateSQL` (postgis.ts lines 118-121). -/
def orderClause (q : SpatialQuery) : String :=
  match q.orderBy with
  | some obs =>
    if obs.length > 0 then
      " ORDER BY " ++ String.intercalate ", "
        (obs.map (fun o => o.field ++ " " ++ upperStr o.direction))
    else ""
  | none => ""

/-- The `LIMIT` part of `generateSQL` (postgis.ts lines 124-126); `0` is
falsy in JavaScript, so `limit: 0` emits nothing. -/
def limitClause (q : SpatialQuery) : String :=
  match q.limit with
  | some l => if l == 0 then "" else " LIMIT " ++ toString l
  | none => ""

/-- `PostGISBackend.generateSQL` (postgis.ts lines 93-129): the sequence of
`sql += …` steps, written as one append chain.  It returns only the statement
text; the source passes no bind values (`executeSQL(sql)` is called without a
parameter list). -/
def generateSQL (q : SpatialQuery) : String :=
  selectClause q ++ " FROM spatial_data WHERE 1=1" ++ timeClause q ++
    geomClause q ++ orderClause q ++ limitClause q

/-! ### SQL validation (`middleware/index.ts`, `validateSQLQuery`)

The scanners below embed the JavaScript regular expressions of
`validateSQLQuery`: `\w` is `[A-Za-z0-9_]`, `\s` is ASCII whitespace, and a
pattern "hits" when it matches at some position of the text. -/

/-- `\w`: ASCII letters, digits, underscore. -/
def wordCh (c : Char) : Bool := c.isAlphanum || c == '_'

/-- `\s` restricted to ASCII whitespace. -/
def spaceCh (c : Char) : Bool :=
  c == ' ' || c == '\t' || c == '\n' || c == '\r' || c == '\x0b' || c == '\x0c'

/-- Case-insensitive: the (lowercase) pattern is a prefix of the text. -/
def ciPref : List Char → List Char → Bool
  | [], _ => true
  | _ :: _, [] => false
  | p :: ps, c :: cs => p == c.toLower && ciPref ps cs

/-- `f` matches at some position of the text. -/
def scanAny (f : List Char → Bool) : List Char → Bool
  | [] => false
  | c :: rest => f (c :: rest) || scanAny f rest

/-- One attempt of `;\s*VERB\s+` (case-insensitive) at the head of the text. -/
def semiVerbAt (verb : List Char) : List Char → Bool
  | c :: rest =>
    c == ';' &&
      (let t := rest.dropWhile spaceCh
       ciPref verb t && (t.drop verb.length).head?.any spaceCh)
  | [] => false

/-- One attempt of `Q\s*or\s+Q1Q\s*=\s*Q1` (case-insensitive, `Q` the quote
character) at the head of the text: the two `OR`-tautology patterns. -/
def tautAt (q : Char) : List Char → Bool
  | c :: rest =>
    c == q &&
      (let t1 := rest.dropWhile spaceCh
       ciPref ['o', 'r'] t1 &&
         (let t2 := t1.drop 2
          t2.head?.any spaceCh &&
            (match t2.dropWhile spaceCh with
             | a :: b :: e :: t4 =>
               a == q && b == '1' && e == q &&
                 (match t4.dropWhile spaceCh with
                  | f :: t6 =>
                    f == '=' &&
                      (match t6.dropWhile spaceCh with
                       | x :: y :: _ => x == q && y == '1'
                       | _ => false)
                  | [] => false)
             | _ => false)))
  | [] => false

/-- One attempt of `union\s+select` (case-insensitive) at the head. -/
def unionAt (cs : List Char) : Bool :=
  ciPref ['u', 'n', 'i', 'o', 'n'] cs &&
    ((cs.drop 5).head?.any spaceCh &&
      ciPref ['s', 'e', 'l', 'e', 'c', 't'] ((cs.drop 5).dropWhile spaceCh))

/-- The `dangerousPatterns` loop of `validateSQLQuery` (index.ts lines 81-100),
in source order; returns the `source` text of the first pattern that matches. -/
def dangerousHit (cs : List Char) : Option String :=
  if scanAny (semiVerbAt ['d', 'r', 'o', 'p']) cs then some ";\\s*drop\\s+"
  else if scanAny (semiVerbAt ['d', 'e', 'l', 'e', 't', 'e']) cs then some ";\\s*delete\\s+"
  else if scanAny (semiVerbAt ['u', 'p', 'd', 'a', 't', 'e']) cs then some ";\\s*update\\s+"
  else if scanAny (semiVerbAt ['i', 'n', 's', 'e', 'r', 't']) cs then some ";\\s*insert\\s+"
  else if scanAny (semiVerbAt ['t', 'r', 'u', 'n', 'c', 'a', 't', 'e']) cs then
    some ";\\s*truncate\\s+"
  else if scanAny (semiVerbAt ['a', 'l', 't', 'e', 'r']) cs then some ";\\s*alter\\s+"
  else if scanAny (tautAt '\'') cs then some "'\\s*or\\s+'1'\\s*=\\s*'1"
  else if scanAny (tautAt '"') cs then some "\"\\s*or\\s+\"1\"\\s*=\\s*\"1"
  else if scanAny unionAt cs then some "union\\s+select"
  else none

/-- One attempt of `\bfrom\s+(\w+)` (case-insensitive) at the head of the
text; the caller checks the word boundary.  Returns the captured table-name
characters and the text after the match. -/
def matchFrom : List Char → Option (List Char × List Char)
  | c1 :: c2 :: c3 :: c4 :: rest =>
    if (c1.toLower == 'f' && c2.toLower == 'r' && c3.toLower == 'o' &&
          c4.toLower == 'm') && rest.head?.any spaceCh then
      let afterSp := rest.dropWhile spaceCh
      let w := afterSp.takeWhile wordCh
      if w.isEmpty then none else some (w, afterSp.drop w.length)
    else none
  | _ => none

theorem matchFrom_length_lt {cs : List Char} {w r : List Char}
    (h : matchFrom cs = some (w, r)) : r.length < cs.length := by
  match cs with
  | [] => simp [matchFrom] at h
  | [c1] => simp [matchFrom] at h
  | [c1, c2] => simp [matchFrom] at h
  | [c1, c2, c3] => simp [matchFrom] at h
  | c1 :: c2 :: c3 :: c4 :: rest =>
    simp only [matchFrom] at h
    split at h
    · split at h
      · exact absurd h (by simp)
      · rw [Option.some.injEq, Prod.mk.injEq] at h
        obtain ⟨hw, hr⟩ := h
        have h1 : r.length ≤ (rest.dropWhile spaceCh).length := by
          rw [← hr]; simp [List.length_drop]
        have h2 : (rest.dropWhile spaceCh).length ≤ rest.length :=
          (List.dropWhile_sublist _).length_le
        simp only [List.length_cons]
        omega
    · exact absurd h (by simp)

/-- The `tablePattern.exec` loop of `validateSQLQuery` (index.ts lines
102-113), written with a structural fuel argument (each match consumes at
least one character, so fuel = text length always suffices; see
`scanTablesF_eq`): scan left to right for `\bfrom\s+(\w+)` matches (the
Boolean argument records whether the previous character was a word
character, i.e. whether `\b` fails at the current position); on each match,
lowercase the captured name and test it against the whitelist; return the
first non-whitelisted name, continuing after the match otherwise. -/
def scanTablesF (allowed : List String) : Nat → Bool → List Char → Option String
  | 0, _, _ => none
  | _ + 1, _, [] => none
  | fuel + 1, prevW, c :: rest =>
    if prevW then
      scanTablesF allowed fuel (wordCh c) rest
    else
      match matchFrom (c :: rest) with
      | none => scanTablesF allowed fuel (wordCh c) rest
      | some (w, r) =>
        let lw := String.mk (w.map Char.toLower)
        if allowed.contains lw then scanTablesF allowed fuel true r
        else some lw

/-- The table scan with enough fuel for its text. -/
def scanTables (allowed : List String) (prevW : Bool) (cs : List Char) : Option String :=
  scanTablesF allowed cs.length prevW cs

/-- The fuel is irrelevant as long as it covers the text's length. -/
theorem scanTablesF_eq (allowed : List String) :
    ∀ (n m : Nat) (b : Bool) (cs : List Char), cs.length ≤ n → cs.length ≤ m →
      scanTablesF allowed n b cs = scanTablesF allowed m b cs := by
  intro n
  induction n with
  | zero =>
    intro m b cs hn _
    have : cs = [] := List.eq_nil_of_length_eq_zero (Nat.le_zero.mp hn)
    subst this
    cases m <;> rfl
  | succ n ih =>
    intro m b cs hn hm
    match cs with
    | [] => cases m <;> rfl
    | c :: rest =>
      match m with
      | 0 => simp at hm
      | m + 1 =>
        have hn' : rest.length ≤ n := by simp at hn; omega
        have hm' : rest.length ≤ m := by simp at hm; omega
        simp only [scanTablesF]
        cases b with
        | true => simpa using ih m (wordCh c) rest hn' hm'
        | false =>
          simp only [Bool.false_eq_true, if_false]
          cases hmf : matchFrom (c :: rest) with
          | none => simpa [hmf] using ih m (wordCh c) rest hn' hm'
          | some pair =>
            obtain ⟨w, r⟩ := pair
            have hrlt : r.length < rest.length + 1 := by
              simpa using matchFrom_length_lt hmf
            have h1 : r.length ≤ n := by omega
            have h2 : r.length ≤ m := by omega
            simp only [hmf]
            by_cases hc : String.mk (w.map Char.toLower) ∈ allowed
            · simpa [hc] using ih m true r h1 h2
            · simp [hc]

/-- `DEFAULT_ALLOWED_TABLES` (index.ts lines 41-48). -/
def DEFAULT_ALLOWED_TABLES : List String :=
  ["drone_trajectory", "device_status", "mission_log", "geo_fence",
   "telemetry_data", "spatial_index"]

/-- `validateSQLQuery` (index.ts lines 76-116): the dangerous-pattern scan in
source order, then the `FROM`-table whitelist scan. -/
def validateSQLQuery (sql : String) (allowedTables : List String) : ValidationResult :=
  match dangerousHit sql.data with
  | some src =>
    ⟨false, some ("Potentially dangerous SQL pattern detected: " ++ src)⟩
  | none =>
    match scanTables allowedTables false sql.data with
    | some t => ⟨false, some ("Table not in allowed list: " ++ t)⟩
    | none => ⟨true, none⟩

/-! ### Resilient request executor (`postgis.ts`, `DeviceBackend.fetch`,
lines 394-428)

One physical attempt is abstracted by its outcome: a success response body,
an HTTP non-success status, or a transport failure (a thrown error; a
per-attempt timeout surfaces this way).  `responses k` is the outcome of the
`k`-th physical attempt (1-based, as in the source loop). -/

inductive AttemptResult where
  | success (body : String)
  | httpError (status : Nat) (statusText : String)
  | transportError (msg : String)
deriving DecidableEq, Repr

/-- `response.ok`. -/
def AttemptResult.isSuccess : AttemptResult → Bool
  | .success _ => true
  | _ => false

/-- The body of a success response. -/
def AttemptResult.okBody : AttemptResult → String
  | .success b => b
  | _ => ""

/-- The `lastError` message recorded for a non-success attempt:
`HTTP ${status}: ${statusText}` for a non-ok response, the thrown message for
a transport failure. -/
def AttemptResult.errText : AttemptResult → String
  | .success _ => ""
  | .httpError s t => "HTTP " ++ toString s ++ ": " ++ t
  | .transportError m => m

/-- The trace of one `fetch` call: the surfaced result (`Except.error` is the
final `throw lastError`, carrying `none` when no attempt ran), the waits slept
between attempts (milliseconds, in order), and the number of physical
attempts made. -/
structure FetchTrace where
  result : Except (Option String) String
  waits : List Nat
  attempts : Nat
deriving Repr

/-- The retry loop of `DeviceBackend.fetch`: `remaining` attempts are left and
the current attempt is numbered `attempt`.  On success the response is
returned immediately; otherwise `lastError` is updated and, when attempts
remain, the executor waits `min(minWait * 2^(attempt-1), maxWait)`. -/
def fetchGo (responses : Nat → AttemptResult) (minWait maxWait : Nat) :
    Nat → Nat → Option String → FetchTrace
  | 0, _, lastErr => ⟨.error lastErr, [], 0⟩
  | remaining + 1, attempt, _ =>
    match responses attempt with
    | .success body => ⟨.ok body, [], 1⟩
    | res =>
      if remaining = 0 then ⟨.error (some res.errText), [], 1⟩
      else
        let t := fetchGo responses minWait maxWait remaining (attempt + 1)
          (some res.errText)
        ⟨t.result, min (minWait * 2 ^ (attempt - 1)) maxWait :: t.waits,
          t.attempts + 1⟩

/-- `DeviceBackend.fetch` for one logical request: up to `maxAttempts`
physical attempts starting at attempt 1 with no recorded error. -/
def resilientFetch (responses : Nat → AttemptResult)
    (maxAttempts minWait maxWait : Nat) : FetchTrace :=
  fetchGo responses minWait maxWait maxAttempts 1 none

/-! ### Trajectory analysis (`detectStopPoints`)

`TrajectoryPoint` (types.ts): timestamps are embedded as millisecond values
(`new Date(p.timestamp).getTime()`), speeds as rationals. -/

structure TrajectoryPoint where
  longitude : ℚ
  latitude : ℚ
  altitude : Option ℚ := none
  timestamp : Int
  speed : Option ℚ := none
  heading : Option ℚ := none
  accuracy : Option ℚ := none
deriving DecidableEq, Repr

/-- `point?.speed ?? 0`: a missing speed is treated as 0. -/
def pSpeed (p : TrajectoryPoint) : ℚ := p.speed.getD 0

/-- The time span from `a` to `b` in seconds:
`(b.timestamp - a.timestamp) / 1000` (written with `mkRat`, which
`durSec_eq_div` shows is the same rational, to keep the definition
kernel-computable). -/
def durSec (a b : TrajectoryPoint) : ℚ := mkRat (b.timestamp - a.timestamp) 1000

theorem durSec_eq_div (a b : TrajectoryPoint) :
    durSec a b = ((b.timestamp - a.timestamp : Int) : ℚ) / 1000 := by
  rw [durSec, Rat.mkRat_eq_div]
  norm_num

/-- A point is "stopped": its recorded speed (0 when absent) is at most the
threshold. -/
def stoppedB (speedThreshold : ℚ) (p : TrajectoryPoint) : Bool :=
  decide (pSpeed p ≤ speedThreshold)

/-- The loop of `detectStopPoints` (trajectory middleware, lines 115-140).
The state is the source's `stopStart` (paired with the point at that index,
which the source reads back as `points[stopStart]`) and the previous point
(the source's `points[i - 1]`, read back when a run closes); `i` is the index
of the head of the remaining list.  A run closes only when a faster point
arrives; the loop ends with no action on a run still open at the end of
input. -/
def detectGo (thr dur : ℚ) :
    List TrajectoryPoint → Option (Nat × TrajectoryPoint) → Option TrajectoryPoint →
      Nat → List Nat
  | [], _, _, _ => []
  | p :: rest, st, prev, i =>
    if pSpeed p ≤ thr then
      match st with
      | none => detectGo thr dur rest (some (i, p)) (some p) (i + 1)
      | some s => detectGo thr dur rest (some s) (some p) (i + 1)
    else
      match st, prev with
      | some (j, sp), some ep =>
        if durSec sp ep ≥ dur then j :: detectGo thr dur rest none (some p) (i + 1)
        else detectGo thr dur rest none (some p) (i + 1)
      | _, _ => detectGo thr dur rest none (some p) (i + 1)

/-- `detectStopPoints(points, speedThreshold, durationThreshold)` (trajectory
middleware, lines 106-143). -/
def detectStopPoints (points : List TrajectoryPoint) (speedThreshold : ℚ := 1/2)
    (durationThreshold : ℚ := 60) : List Nat :=
  detectGo speedThreshold durationThreshold points none none 0

/-- Reference function, following the spec's words restricted to closed runs:
split the sequence into maximal runs of consecutive stopped points; a run
followed by a faster point (a closed run) is reported by the index of its
first point when its time span (last stopped timestamp − first stopped
timestamp) is at least the duration threshold; a run still open at the end of
input is discarded. -/
def closedStopRuns (thr dur : ℚ) : List TrajectoryPoint → Nat → List Nat
  | [], _ => []
  | p :: rest, i =>
    if pSpeed p ≤ thr then
      -- the maximal stopped run starting at index i, and what follows it
      let run := p :: rest.takeWhile (stoppedB thr)
      match rest.dropWhile (stoppedB thr) with
      | [] => []
      | _ :: _ =>
        (if durSec p (run.getLastD p) ≥ dur then [i] else []) ++
          closedStopRuns thr dur (rest.dropWhile (stoppedB thr)) (i + run.length)
    else closedStopRuns thr dur rest (i + 1)
termination_by l _ => l.length
decreasing_by
  · simp only [List.length_cons]
    exact Nat.lt_succ_of_le (List.dropWhile_sublist _).length_le
  · simp

/-! ### Structure of the generated statement text

`generateSQL` always emits the fixed segment `" FROM spatial_data WHERE 1=1"`
between the `SELECT` part and the optional filter clauses.  The lemmas below
show that the table scan of `validateSQLQuery` always finds a
non-whitelisted name in any text containing this segment, whatever
user-controlled text surrounds it. -/

def spatialChars : List Char :=
  ['s', 'p', 'a', 't', 'i', 'a', 'l', '_', 'd', 'a', 't', 'a']

def w11Chars : List Char := ['W', 'H', 'E', 'R', 'E', ' ', '1', '=', '1']

/-- `midChars` with its leading space removed. -/
def restMid : List Char :=
  'F' :: 'R' :: 'O' :: 'M' :: ' ' :: (spatialChars ++ ' ' :: w11Chars)

/-- The characters of the fixed segment `" FROM spatial_data WHERE 1=1"`. -/
def midChars : List Char := ' ' :: restMid

theorem mid_data : (" FROM spatial_data WHERE 1=1" : String).data = midChars := by
  decide

theorem restMid_append (s : List Char) :
    restMid ++ s =
      'F' :: 'R' :: 'O' :: 'M' :: ' ' :: (spatialChars ++ ' ' :: (w11Chars ++ s)) := by
  simp [restMid, List.append_assoc]

/-- `takeWhile wordCh` never crosses a space. -/
theorem takeWhile_word_append (q z : List Char) :
    List.takeWhile wordCh (q ++ ' ' :: z) = List.takeWhile wordCh q := by
  induction q with
  | nil => simp [List.takeWhile_cons, show wordCh ' ' = false by decide]
  | cons a q ih =>
    cases ha : wordCh a with
    | true => simp [List.takeWhile_cons, ha, ih]
    | false => simp [List.takeWhile_cons, ha]

theorem dropWhile_space_append_ne (q z : List Char) (h : q.dropWhile spaceCh ≠ []) :
    (q ++ z).dropWhile spaceCh = q.dropWhile spaceCh ++ z := by
  have he : (q.dropWhile spaceCh).isEmpty = false := by
    cases hq : q.dropWhile spaceCh with
    | nil => exact absurd hq h
    | cons a l => rfl
  simp [List.dropWhile_append, he]

theorem dropWhile_space_append_eq (q z : List Char) (h : q.dropWhile spaceCh = []) :
    (q ++ z).dropWhile spaceCh = z.dropWhile spaceCh := by
  simp [List.dropWhile_append, h]

/-- `\bfrom\s+(\w+)` matching at the `FROM` of the fixed segment captures
`spatial_data`. -/
theorem matchFrom_at_FROM (z : List Char) :
    matchFrom ('F' :: 'R' :: 'O' :: 'M' :: ' ' :: (spatialChars ++ ' ' :: z)) =
      some (spatialChars, ' ' :: z) := by
  have hsp : List.dropWhile spaceCh (' ' :: (spatialChars ++ ' ' :: z)) =
      spatialChars ++ ' ' :: z := by
    rw [List.dropWhile_cons_of_pos (by decide)]
    rw [show spatialChars ++ ' ' :: z =
      's' :: (['p', 'a', 't', 'i', 'a', 'l', '_', 'd', 'a', 't', 'a'] ++ ' ' :: z)
      from rfl]
    rw [List.dropWhile_cons_of_neg (by decide)]
  have htw : List.takeWhile wordCh (spatialChars ++ ' ' :: z) = spatialChars := by
    rw [takeWhile_word_append]; decide
  have hdrop : (spatialChars ++ ' ' :: z).drop spatialChars.length = ' ' :: z :=
    List.drop_left spatialChars (' ' :: z)
  simp only [matchFrom, List.head?_cons]
  rw [if_pos (by simp [Option.any, spaceCh, Char.toLower])]
  rw [hsp, htw]
  rw [show spatialChars.isEmpty = false from rfl]
  simp [hdrop]

/-- Any successful `\bfrom\s+(\w+)` match at the head of
`p ++ midChars ++ s` either stays inside `p` (leaving a strictly shorter
prefix before the fixed segment) or captures the `FROM` keyword of the fixed
segment itself. -/
theorem matchFrom_decomp (p s w r : List Char) (hp : p ≠ [])
    (h : matchFrom (p ++ midChars ++ s) = some (w, r)) :
    (∃ q, r = q ++ midChars ++ s ∧ q.length < p.length) ∨
      w.map Char.toLower = ['f', 'r', 'o', 'm'] := by
  match p with
  | [] => exact absurd rfl hp
  | [a] =>
    exfalso
    simp only [List.cons_append, List.nil_append, midChars, restMid] at h
    rw [matchFrom] at h
    rw [if_neg (by simp [Char.toLower])] at h
    exact Option.noConfusion h
  | [a, b] =>
    exfalso
    simp only [List.cons_append, List.nil_append, midChars, restMid] at h
    rw [matchFrom] at h
    rw [if_neg (by simp [Char.toLower])] at h
    exact Option.noConfusion h
  | [a, b, c] =>
    exfalso
    simp only [List.cons_append, List.nil_append, midChars, restMid] at h
    rw [matchFrom] at h
    rw [if_neg (by simp [Char.toLower])] at h
    exact Option.noConfusion h
  | a :: b :: c :: d :: p4 =>
    simp only [List.cons_append] at h
    rw [matchFrom] at h
    split at h
    case isFalse => exact Option.noConfusion h
    case isTrue hcond =>
      dsimp only at h
      split at h
      case isTrue => exact Option.noConfusion h
      case isFalse hne =>
        rw [Option.some.injEq, Prod.mk.injEq] at h
        obtain ⟨hw, hr⟩ := h
        cases hq : (p4.dropWhile spaceCh) with
        | nil =>
          -- all of `p` after the keyword is spaces: the match reads the
          -- segment's own FROM keyword
          right
          have hafter : (p4 ++ midChars ++ s).dropWhile spaceCh =
              'F' :: 'R' :: 'O' :: 'M' :: ' ' :: (spatialChars ++ ' ' :: (w11Chars ++ s)) := by
            rw [List.append_assoc, dropWhile_space_append_eq _ _ hq]
            rw [show midChars ++ s = ' ' :: (restMid ++ s) from rfl]
            rw [List.dropWhile_cons_of_pos (by decide), restMid_append]
            rw [List.dropWhile_cons_of_neg (by decide)]
          rw [hafter] at hw
          rw [show ('F' :: 'R' :: 'O' :: 'M' :: ' ' ::
                (spatialChars ++ ' ' :: (w11Chars ++ s))) =
              ['F', 'R', 'O', 'M'] ++ ' ' :: (spatialChars ++ ' ' :: (w11Chars ++ s))
              from rfl, takeWhile_word_append] at hw
          rw [← hw]
          decide
        | cons e q1 =>
          -- the match stays inside `p`
          left
          have hne' : p4.dropWhile spaceCh ≠ [] := by rw [hq]; simp
          have hafter : (p4 ++ midChars ++ s).dropWhile spaceCh =
              p4.dropWhile spaceCh ++ (midChars ++ s) := by
            rw [List.append_assoc, dropWhile_space_append_ne _ _ hne']
          have hwq : w = List.takeWhile wordCh (p4.dropWhile spaceCh) := by
            rw [hafter, show midChars ++ s = ' ' :: (restMid ++ s) from rfl,
              takeWhile_word_append] at hw
            exact hw.symm
          have hlen : w.length ≤ (p4.dropWhile spaceCh).length := by
            rw [hwq]; exact (List.takeWhile_sublist _).length_le
          refine ⟨(p4.dropWhile spaceCh).drop w.length, ?_, ?_⟩
          · rw [← hr, hafter, show midChars ++ s = ' ' :: (restMid ++ s) from rfl,
              takeWhile_word_append, ← hwq, List.drop_append_of_le_length hlen]
            simp [midChars, List.append_assoc]
          · have h1 : ((p4.dropWhile spaceCh).drop w.length).length ≤
                (p4.dropWhile spaceCh).length := by
              simp [List.length_drop]
            have h2 : (p4.dropWhile spaceCh).length ≤ p4.length :=
              (List.dropWhile_sublist _).length_le
            simp only [List.length_cons]
            omega

/-! Unfolding equations for `scanTables` (it is defined by well-founded
recursion, so its defining equations are restated here for rewriting). -/

theorem scanTables_nil (allowed : List String) (b : Bool) :
    scanTables allowed b [] = none := rfl

theorem scanTables_cons_prevW (allowed : List String) (c : Char) (rest : List Char) :
    scanTables allowed true (c :: rest) = scanTables allowed (wordCh c) rest := rfl

theorem scanTables_cons_none (allowed : List String) (b : Bool) (c : Char)
    (rest : List Char) (hm : matchFrom (c :: rest) = none) :
    scanTables allowed b (c :: rest) = scanTables allowed (wordCh c) rest := by
  cases b with
  | true => rfl
  | false =>
    show scanTablesF allowed (rest.length + 1) false (c :: rest) = _
    simp only [scanTablesF, Bool.false_eq_true, if_false, hm]
    rfl

theorem scanTables_cons_some (allowed : List String) (c : Char) (rest w r : List Char)
    (hm : matchFrom (c :: rest) = some (w, r)) :
    scanTables allowed false (c :: rest) =
      if allowed.contains (String.mk (w.map Char.toLower)) then scanTables allowed true r
      else some (String.mk (w.map Char.toLower)) := by
  have hr : r.length ≤ rest.length := by
    have := matchFrom_length_lt hm
    simp only [List.length_cons] at this
    omega
  show scanTablesF allowed (rest.length + 1) false (c :: rest) = _
  simp only [scanTablesF, Bool.false_eq_true, if_false, hm]
  rw [scanTablesF_eq allowed rest.length r.length true r hr (le_refl _)]
  rfl

/-- Scanning the fixed segment itself (with anything after it) reports the
non-whitelisted table `spatial_data`. -/
theorem scanTables_midOnly (allowed : List String)
    (hSpat : allowed.contains "spatial_data" = false) (b : Bool) (s : List Char) :
    (scanTables allowed b (midChars ++ s)).isSome = true := by
  have hnone : matchFrom (' ' :: (restMid ++ s)) = none := by
    rw [restMid_append, matchFrom, if_neg (by simp [Char.toLower])]
  have hmain : scanTables allowed false (restMid ++ s) =
      some (String.mk (spatialChars.map Char.toLower)) := by
    rw [restMid_append,
      scanTables_cons_some allowed _ _ _ _ (matchFrom_at_FROM (w11Chars ++ s)),
      show String.mk (spatialChars.map Char.toLower) = "spatial_data" by decide,
      hSpat]
    simp
  have hstep : scanTables allowed b (midChars ++ s) =
      scanTables allowed false (restMid ++ s) := by
    show scanTables allowed b (' ' :: (restMid ++ s)) = _
    cases b with
    | true =>
      rw [scanTables_cons_prevW, show wordCh ' ' = false by decide]
    | false =>
      rw [scanTables_cons_none allowed false ' ' _ hnone,
        show wordCh ' ' = false by decide]
  rw [hstep, hmain]
  rfl

/-- The table scan of `validateSQLQuery` finds a non-whitelisted name in any
text of the shape `p ++ " FROM spatial_data WHERE 1=1" ++ s`, provided
neither `from` nor `spatial_data` is whitelisted. -/
theorem scanTables_mid_isSome (allowed : List String)
    (hFrom : allowed.contains "from" = false)
    (hSpat : allowed.contains "spatial_data" = false) :
    ∀ (n : Nat) (p : List Char), p.length ≤ n → ∀ (b : Bool) (s : List Char),
      (scanTables allowed b (p ++ midChars ++ s)).isSome = true := by
  intro n
  induction n with
  | zero =>
    intro p hp b s
    have hpnil : p = [] := List.eq_nil_of_length_eq_zero (Nat.le_zero.mp hp)
    subst hpnil
    simpa using scanTables_midOnly allowed hSpat b s
  | succ n ih =>
    intro p hp b s
    match p with
    | [] => simpa using scanTables_midOnly allowed hSpat b s
    | c :: p' =>
      have hp' : p'.length ≤ n := by
        simp only [List.length_cons] at hp; omega
      rw [show (c :: p') ++ midChars ++ s = c :: (p' ++ midChars ++ s) by simp]
      cases b with
      | true =>
        rw [scanTables_cons_prevW]
        have := ih p' hp' (wordCh c) s
        simpa [List.append_assoc] using this
      | false =>
        cases hm : matchFrom (c :: (p' ++ midChars ++ s)) with
        | none =>
          rw [scanTables_cons_none allowed false c _ hm]
          have := ih p' hp' (wordCh c) s
          simpa [List.append_assoc] using this
        | some pair =>
          obtain ⟨w, r⟩ := pair
          rw [scanTables_cons_some allowed c _ w r hm]
          by_cases hc : allowed.contains (String.mk (w.map Char.toLower)) = true
          · rw [if_pos hc]
            have hm' : matchFrom ((c :: p') ++ midChars ++ s) = some (w, r) := by
              simpa [List.append_assoc] using hm
            rcases matchFrom_decomp (c :: p') s w r (by simp) hm' with
              ⟨q, hr, hlen⟩ | hfrom
            · subst hr
              have hq : q.length ≤ n := by
                simp only [List.length_cons] at hlen; omega
              have := ih q hq true s
              simpa [List.append_assoc] using this
            · exfalso
              have : String.mk (w.map Char.toLower) = "from" := by
                rw [hfrom]
              rw [this, hFrom] at hc
              exact Bool.noConfusion hc
          · rw [if_neg hc]
            rfl

/-- The statement text of `generateSQL` decomposes around the fixed
segment. -/
theorem generateSQL_data (q : SpatialQuery) :
    (generateSQL q).data =
      (selectClause q).data ++ midChars ++
        (timeClause q ++ geomClause q ++ orderClause q ++ limitClause q).data := by
  simp [generateSQL, String.data_append, ← mid_data, List.append_assoc]

/-- `maxRows = 1000`, the destructuring default of
`createSpatialQueryMiddleware` (index.ts line 61): the configured maximum
row count.  `generateSQL` never consults it. -/
def DEFAULT_MAX_ROWS : Nat := 1000

/-- The scan only ever reports a name that is not in the whitelist. -/
theorem scanTablesF_some_not_mem (allowed : List String) :
    ∀ (fuel : Nat) (b : Bool) (cs : List Char) (t : String),
      scanTablesF allowed fuel b cs = some t → allowed.contains t = false := by
  intro fuel
  induction fuel with
  | zero => intro b cs t h; exact absurd h (by simp [scanTablesF])
  | succ fuel ih =>
    intro b cs t h
    match cs with
    | [] => exact absurd h (by simp [scanTablesF])
    | c :: rest =>
      simp only [scanTablesF] at h
      cases b with
      | true => exact ih (wordCh c) rest t (by simpa using h)
      | false =>
        simp only [Bool.false_eq_true, if_false] at h
        cases hmf : matchFrom (c :: rest) with
        | none =>
          rw [hmf] at h
          exact ih (wordCh c) rest t h
        | some pair =>
          obtain ⟨w, r⟩ := pair
          rw [hmf] at h
          dsimp only at h
          by_cases hc : String.mk (w.map Char.toLower) ∈ allowed
          · rw [if_pos (by simpa using hc)] at h
            exact ih true r t h
          · rw [if_neg (by simpa using hc)] at h
            rw [Option.some.injEq] at h
            subst h
            simpa using hc

/-! ### The claims -/

/-- C1: the claim says a `takeoff` command submitted without an explicit
confirmation flag fails with `ConfirmationRequiredError`.  In the source,
`takeoff` is indeed in `DEFAULT_CONFIRM_ACTIONS`, but `validateDeviceCommand`
— the only validation the middleware defines — takes no confirmation flag at
all and accepts the bare `takeoff` action; no confirmation check and no
`ConfirmationRequiredError` exist anywhere in the code, although
`DEFAULT_CONFIRM_ACTIONS` is documented as "Default critical actions that
require confirmation". -/
theorem takeoff_accepted_without_confirmation :
    DEFAULT_CONFIRM_ACTIONS.contains "takeoff" = true ∧
      validateDeviceCommand "takeoff" none = ⟨true, none⟩ :=
  ⟨by decide, by decide⟩

/-- C2: the claim says the compiler produces a parameterized statement plus
bind values and never interpolates user-supplied literals.  `generateSQL`
returns only a statement string (no bind list exists in its type), and the
time-range bounds and the serialized geometry are spliced directly into that
string. -/
theorem generateSQL_interpolates_literals :
    generateSQL ⟨"bbox", some ⟨100, 200⟩, some "GEO", none, none, none⟩ =
      "SELECT * FROM spatial_data WHERE 1=1 AND timestamp BETWEEN '100' AND '200' AND ST_Within(geom, ST_GeomFromGeoJSON('GEO'))" := by
  rfl

/-- C3: every statement produced by `generateSQL` is rejected by
`validateSQLQuery` under the default whitelist: the text always contains
`FROM spatial_data`, and `spatial_data` is not one of the six allowed
tables, so the always-run validation pass never accepts compiler-generated
text. -/
theorem generated_statement_never_passes_validation (q : SpatialQuery) :
    (validateSQLQuery (generateSQL q) DEFAULT_ALLOWED_TABLES).valid = false := by
  have hscan :
      (scanTables DEFAULT_ALLOWED_TABLES false (generateSQL q).data).isSome = true := by
    rw [generateSQL_data]
    exact scanTables_mid_isSome DEFAULT_ALLOWED_TABLES (by decide) (by decide)
      (selectClause q).data.length _ (le_refl _) false _
  unfold validateSQLQuery
  split
  · rfl
  · split
    · rfl
    · next hnone => rw [hnone] at hscan; exact Bool.noConfusion hscan

/-- C4: the claim says a description whose time range has start after end
fails with `InvalidRangeError` and no statement is emitted.  `generateSQL`
performs no range check: with start 200 and end 100 (start > end) it still
returns a complete statement interpolating the inverted bounds. -/
theorem inverted_range_still_emits_statement :
    (200 : Int) > 100 ∧
      generateSQL ⟨"trajectory", some ⟨200, 100⟩, none, none, none, none⟩ =
        "SELECT * FROM spatial_data WHERE 1=1 AND timestamp BETWEEN '200' AND '100'" :=
  ⟨by decide, by rfl⟩

/-- C5: the claim says the effective row limit is clamped to the configured
maximum and that a missing limit receives the default maximum.  `generateSQL`
does neither: a requested limit of 5000 is emitted verbatim although the
configured maximum `DEFAULT_MAX_ROWS` is 1000, and a description without a
limit gets no `LIMIT` clause at all. -/
theorem limit_not_clamped :
    5000 > DEFAULT_MAX_ROWS ∧
      generateSQL ⟨"bbox", none, none, none, none, some 5000⟩ =
        "SELECT * FROM spatial_data WHERE 1=1 LIMIT 5000" ∧
      generateSQL ⟨"bbox", none, none, none, none, none⟩ =
        "SELECT * FROM spatial_data WHERE 1=1" :=
  ⟨by decide, by rfl, by rfl⟩

/-- C6 counterexample: the claim says any statement containing one of the
non-SELECT verbs (such as DELETE) is rejected, but the source patterns only
match a verb *after* a statement separator: a bare `DELETE FROM
drone_trajectory` statement passes `validateSQLQuery` unchallenged. -/
theorem bare_delete_passes_validation :
    validateSQLQuery "DELETE FROM drone_trajectory" DEFAULT_ALLOWED_TABLES =
      ⟨true, none⟩ := by
  decide

/-- C6 (amended): the scan rejects, with an error naming the matched
pattern, every statement containing a statement separator followed by one of
the six verbs drop/delete/update/insert/truncate/alter (each with trailing
whitespace), an OR-based `1=1` quote tautology, or `UNION SELECT`; a
non-SELECT verb without a preceding separator is not caught by the pattern
scan. -/
theorem dangerous_patterns_reject (sql : String) (allowed : List String)
    (h : scanAny (semiVerbAt ['d', 'r', 'o', 'p']) sql.data = true ∨
      scanAny (semiVerbAt ['d', 'e', 'l', 'e', 't', 'e']) sql.data = true ∨
      scanAny (semiVerbAt ['u', 'p', 'd', 'a', 't', 'e']) sql.data = true ∨
      scanAny (semiVerbAt ['i', 'n', 's', 'e', 'r', 't']) sql.data = true ∨
      scanAny (semiVerbAt ['t', 'r', 'u', 'n', 'c', 'a', 't', 'e']) sql.data = true ∨
      scanAny (semiVerbAt ['a', 'l', 't', 'e', 'r']) sql.data = true ∨
      scanAny (tautAt '\'') sql.data = true ∨
      scanAny (tautAt '"') sql.data = true ∨
      scanAny unionAt sql.data = true) :
    (validateSQLQuery sql allowed).valid = false ∧
      ∃ src, (validateSQLQuery sql allowed).error =
        some ("Potentially dangerous SQL pattern detected: " ++ src) := by
  have hd : (dangerousHit sql.data).isSome = true := by
    unfold dangerousHit
    split_ifs <;> first
      | rfl
      | (rcases h with h | h | h | h | h | h | h | h | h <;> simp_all)
  obtain ⟨src, hsrc⟩ := Option.isSome_iff_exists.mp hd
  unfold validateSQLQuery
  rw [hsrc]
  exact ⟨rfl, src, rfl⟩

/-- Witness for C6 (amended): a stacked `; DROP` statement is rejected. -/
theorem dangerous_patterns_reject_witness :
    (validateSQLQuery "SELECT a FROM mission_log; DROP TABLE x"
        DEFAULT_ALLOWED_TABLES).valid = false ∧
      ∃ src, (validateSQLQuery "SELECT a FROM mission_log; DROP TABLE x"
          DEFAULT_ALLOWED_TABLES).error =
        some ("Potentially dangerous SQL pattern detected: " ++ src) :=
  dangerous_patterns_reject "SELECT a FROM mission_log; DROP TABLE x"
    DEFAULT_ALLOWED_TABLES (Or.inl (by decide))

/-- C7: a statement whose table scan finds a name outside the whitelist (and
which triggers no dangerous-pattern rejection first) fails validation, the
reported name really is non-whitelisted, and the error message names it. -/
theorem non_whitelisted_table_rejected (sql : String) (allowed : List String)
    (t : String) (hclean : dangerousHit sql.data = none)
    (hscan : scanTables allowed false sql.data = some t) :
    allowed.contains t = false ∧
      validateSQLQuery sql allowed =
        ⟨false, some ("Table not in allowed list: " ++ t)⟩ := by
  refine ⟨scanTablesF_some_not_mem allowed sql.data.length false sql.data t hscan, ?_⟩
  unfold validateSQLQuery
  rw [hclean, hscan]

/-- Witness for C7: `secret_stuff` is outside the whitelist and is named in
the error. -/
theorem non_whitelisted_table_rejected_witness :
    DEFAULT_ALLOWED_TABLES.contains "secret_stuff" = false ∧
      validateSQLQuery "SELECT * FROM secret_stuff" DEFAULT_ALLOWED_TABLES =
        ⟨false, some ("Table not in allowed list: " ++ "secret_stuff")⟩ :=
  non_whitelisted_table_rejected "SELECT * FROM secret_stuff"
    DEFAULT_ALLOWED_TABLES "secret_stuff" (by decide) (by decide)

/-! ### Lemmas about the retry loop -/

theorem fetchGo_attempts_le (responses : Nat → AttemptResult) (minW maxW : Nat) :
    ∀ (r attempt : Nat) (le : Option String),
      (fetchGo responses minW maxW r attempt le).attempts ≤ r := by
  intro r
  induction r with
  | zero => intro attempt le; rfl
  | succ r ih =>
    intro attempt le
    show (fetchGo responses minW maxW (r + 1) attempt le).attempts ≤ r + 1
    simp only [fetchGo]
    cases responses attempt with
    | success b => simp
    | httpError s t =>
      by_cases hr : r = 0
      · simp [hr]
      · simp only [if_neg hr]
        have := ih (attempt + 1) (some (AttemptResult.httpError s t).errText)
        simpa using this
    | transportError m =>
      by_cases hr : r = 0
      · simp [hr]
      · simp only [if_neg hr]
        have := ih (attempt + 1) (some (AttemptResult.transportError m).errText)
        simpa using this

theorem fetchGo_attempts_pos (responses : Nat → AttemptResult) (minW maxW : Nat) :
    ∀ (r attempt : Nat) (le : Option String), 1 ≤ r →
      1 ≤ (fetchGo responses minW maxW r attempt le).attempts := by
  intro r attempt le hr
  match r, hr with
  | r + 1, _ =>
    simp only [fetchGo]
    cases responses attempt with
    | success b => simp
    | httpError s t => by_cases h0 : r = 0 <;> simp [h0]
    | transportError m => by_cases h0 : r = 0 <;> simp [h0]

theorem fetchGo_waits (responses : Nat → AttemptResult) (minW maxW : Nat) :
    ∀ (r attempt : Nat) (le : Option String), 1 ≤ attempt →
      (fetchGo responses minW maxW r attempt le).waits =
        (List.range ((fetchGo responses minW maxW r attempt le).attempts - 1)).map
          (fun i => min (minW * 2 ^ (attempt - 1 + i)) maxW) := by
  intro r
  induction r with
  | zero => intro attempt le _; rfl
  | succ r ih =>
    intro attempt le hat1
    simp only [fetchGo]
    cases responses attempt with
    | success b => simp
    | httpError s t =>
      by_cases h0 : r = 0
      · simp [h0]
      · simp only [if_neg h0]
        have hpos : 1 ≤ (fetchGo responses minW maxW r (attempt + 1)
            (some (AttemptResult.httpError s t).errText)).attempts :=
          fetchGo_attempts_pos responses minW maxW r (attempt + 1) _ (by omega)
        have hih := ih (attempt + 1) (some (AttemptResult.httpError s t).errText)
          (by omega)
        simp only [hih]
        rw [show (fetchGo responses minW maxW r (attempt + 1)
            (some (AttemptResult.httpError s t).errText)).attempts + 1 - 1 =
          ((fetchGo responses minW maxW r (attempt + 1)
            (some (AttemptResult.httpError s t).errText)).attempts - 1) + 1 by omega]
        rw [List.range_succ_eq_map, List.map_cons, List.map_map]
        refine congrArg₂ _ (by simp) ?_
        refine List.map_congr_left fun i _ => ?_
        simp only [Function.comp_apply]
        rw [show attempt + 1 - 1 + i = attempt - 1 + (i + 1) from by omega]
    | transportError m =>
      by_cases h0 : r = 0
      · simp [h0]
      · simp only [if_neg h0]
        have hpos : 1 ≤ (fetchGo responses minW maxW r (attempt + 1)
            (some (AttemptResult.transportError m).errText)).attempts :=
          fetchGo_attempts_pos responses minW maxW r (attempt + 1) _ (by omega)
        have hih := ih (attempt + 1) (some (AttemptResult.transportError m).errText)
          (by omega)
        simp only [hih]
        rw [show (fetchGo responses minW maxW r (attempt + 1)
            (some (AttemptResult.transportError m).errText)).attempts + 1 - 1 =
          ((fetchGo responses minW maxW r (attempt + 1)
            (some (AttemptResult.transportError m).errText)).attempts - 1) + 1 by omega]
        rw [List.range_succ_eq_map, List.map_cons, List.map_map]
        refine congrArg₂ _ (by simp) ?_
        refine List.map_congr_left fun i _ => ?_
        simp only [Function.comp_apply]
        rw [show attempt + 1 - 1 + i = attempt - 1 + (i + 1) from by omega]

theorem fetchGo_all_fail (responses : Nat → AttemptResult) (minW maxW : Nat) :
    ∀ (r attempt : Nat) (le : Option String), 1 ≤ r →
      (∀ j, attempt ≤ j → j < attempt + r → (responses j).isSuccess = false) →
      (fetchGo responses minW maxW r attempt le).attempts = r ∧
        (fetchGo responses minW maxW r attempt le).result =
          .error (some ((responses (attempt + r - 1)).errText)) := by
  intro r
  induction r with
  | zero => intro attempt le h; omega
  | succ r ih =>
    intro attempt le _ hfail
    have hfa : (responses attempt).isSuccess = false :=
      hfail attempt (le_refl _) (by omega)
    simp only [fetchGo]
    cases hres : responses attempt with
    | success b => rw [hres] at hfa; exact absurd hfa (by simp [AttemptResult.isSuccess])
    | httpError s t =>
      by_cases h0 : r = 0
      · subst h0
        constructor
        · simp
        · simp [show attempt + 1 - 1 = attempt from by omega, hres]
      · simp only [if_neg h0]
        have := ih (attempt + 1) (some (AttemptResult.httpError s t).errText)
          (by omega) (fun j h1 h2 => hfail j (by omega) (by omega))
        refine ⟨by simp [this.1], ?_⟩
        dsimp only
        rw [this.2, show attempt + 1 + r - 1 = attempt + (r + 1) - 1 from by omega]
    | transportError m =>
      by_cases h0 : r = 0
      · subst h0
        constructor
        · simp
        · simp [show attempt + 1 - 1 = attempt from by omega, hres]
      · simp only [if_neg h0]
        have := ih (attempt + 1) (some (AttemptResult.transportError m).errText)
          (by omega) (fun j h1 h2 => hfail j (by omega) (by omega))
        refine ⟨by simp [this.1], ?_⟩
        dsimp only
        rw [this.2, show attempt + 1 + r - 1 = attempt + (r + 1) - 1 from by omega]

theorem fetchGo_first_success (responses : Nat → AttemptResult) (minW maxW : Nat) :
    ∀ (d r attempt : Nat) (le : Option String), d < r →
      (responses (attempt + d)).isSuccess = true →
      (∀ j, attempt ≤ j → j < attempt + d → (responses j).isSuccess = false) →
      (fetchGo responses minW maxW r attempt le).attempts = d + 1 ∧
        (fetchGo responses minW maxW r attempt le).result =
          .ok ((responses (attempt + d)).okBody) := by
  intro d
  induction d with
  | zero =>
    intro r attempt le hd hsucc _
    match r, hd with
    | r + 1, _ =>
      simp only [fetchGo]
      cases hres : responses attempt with
      | success b => simp [AttemptResult.okBody, hres]
      | httpError s t =>
        rw [show attempt + 0 = attempt by omega, hres] at hsucc
        exact absurd hsucc (by simp [AttemptResult.isSuccess])
      | transportError m =>
        rw [show attempt + 0 = attempt by omega, hres] at hsucc
        exact absurd hsucc (by simp [AttemptResult.isSuccess])
  | succ d ih =>
    intro r attempt le hd hsucc hfail
    have hfa : (responses attempt).isSuccess = false :=
      hfail attempt (le_refl _) (by omega)
    match r, hd with
    | r + 1, _ =>
      have h0 : r ≠ 0 := by omega
      simp only [fetchGo]
      cases hres : responses attempt with
      | success b => rw [hres] at hfa; exact absurd hfa (by simp [AttemptResult.isSuccess])
      | httpError s t =>
        simp only [if_neg h0]
        have := ih r (attempt + 1) (some (AttemptResult.httpError s t).errText)
          (by omega) (by rw [show attempt + 1 + d = attempt + (d + 1) by omega]; exact hsucc)
          (fun j h1 h2 => hfail j (by omega) (by omega))
        refine ⟨by simp [this.1], ?_⟩
        dsimp only
        rw [this.2, show attempt + 1 + d = attempt + (d + 1) from by omega]
      | transportError m =>
        simp only [if_neg h0]
        have := ih r (attempt + 1) (some (AttemptResult.transportError m).errText)
          (by omega) (by rw [show attempt + 1 + d = attempt + (d + 1) by omega]; exact hsucc)
          (fun j h1 h2 => hfail j (by omega) (by omega))
        refine ⟨by simp [this.1], ?_⟩
        dsimp only
        rw [this.2, show attempt + 1 + d = attempt + (d + 1) from by omega]

/-- C8: the retry executor of `DeviceBackend.fetch` makes at most
`maxAttempts` physical attempts; the waits slept between consecutive
attempts are exactly `min(minWait * 2^(k-1), maxWait)` after the `k`-th
attempt; the first success response is returned immediately (after exactly
that many attempts); and when every attempt fails, the loop runs all
`maxAttempts` attempts and surfaces the last attempt's error. -/
theorem resilient_fetch_policy (responses : Nat → AttemptResult)
    (maxAttempts minWait maxWait : Nat) :
    (resilientFetch responses maxAttempts minWait maxWait).attempts ≤ maxAttempts ∧
    (resilientFetch responses maxAttempts minWait maxWait).waits =
      (List.range ((resilientFetch responses maxAttempts minWait maxWait).attempts - 1)).map
        (fun k => min (minWait * 2 ^ k) maxWait) ∧
    (∀ d, d + 1 ≤ maxAttempts → (responses (d + 1)).isSuccess = true →
      (∀ j, 1 ≤ j → j ≤ d → (responses j).isSuccess = false) →
      (resilientFetch responses maxAttempts minWait maxWait).attempts = d + 1 ∧
        (resilientFetch responses maxAttempts minWait maxWait).result =
          .ok ((responses (d + 1)).okBody)) ∧
    ((∀ j, 1 ≤ j → j ≤ maxAttempts → (responses j).isSuccess = false) →
      1 ≤ maxAttempts →
      (resilientFetch responses maxAttempts minWait maxWait).attempts = maxAttempts ∧
        (resilientFetch responses maxAttempts minWait maxWait).result =
          .error (some ((responses maxAttempts).errText))) := by
  unfold resilientFetch
  refine ⟨fetchGo_attempts_le responses minWait maxWait maxAttempts 1 none, ?_, ?_, ?_⟩
  · have := fetchGo_waits responses minWait maxWait maxAttempts 1 none (le_refl _)
    simpa using this
  · intro d hd hsucc hfail
    have := fetchGo_first_success responses minWait maxWait d maxAttempts 1 none
      (by omega) (by rw [show 1 + d = d + 1 by omega]; exact hsucc)
      (fun j h1 h2 => hfail j h1 (by omega))
    exact ⟨this.1, by rw [this.2, show 1 + d = d + 1 by omega]⟩
  · intro hfail hmax
    have := fetchGo_all_fail responses minWait maxWait maxAttempts 1 none hmax
      (fun j h1 h2 => hfail j h1 (by omega))
    exact ⟨this.1, by rw [this.2, show 1 + maxAttempts - 1 = maxAttempts by omega]⟩

/-- Witness for C8: three attempts configured, the first times out, the
second succeeds: two attempts are made, one backoff wait of
`min(1000·2⁰, 10000) = 1000` is slept, and the success body is returned. -/
theorem resilient_fetch_policy_witness :
    (resilientFetch
        (fun k => if k = 2 then .success "ok" else .transportError "timeout")
        3 1000 10000).attempts = 2 ∧
      (resilientFetch
          (fun k => if k = 2 then .success "ok" else .transportError "timeout")
          3 1000 10000).result = .ok "ok" ∧
      (resilientFetch
          (fun k => if k = 2 then .success "ok" else .transportError "timeout")
          3 1000 10000).waits = [1000] := by
  have h := (resilient_fetch_policy
    (fun k => if k = 2 then .success "ok" else .transportError "timeout")
    3 1000 10000).2.2.1 1 (by omega) (by decide) (by
      intro j h1 h2
      have : j = 1 := by omega
      subst this
      decide)
  refine ⟨h.1, ?_, ?_⟩
  · have := h.2
    simpa using this
  · rfl

/-! ### Lemmas about stop detection -/

theorem closedStopRuns_nil (thr dur : ℚ) (i : Nat) :
    closedStopRuns thr dur [] i = [] := by
  simp [closedStopRuns]

theorem closedStopRuns_cons (thr dur : ℚ) (p : TrajectoryPoint)
    (rest : List TrajectoryPoint) (i : Nat) :
    closedStopRuns thr dur (p :: rest) i =
      if pSpeed p ≤ thr then
        match rest.dropWhile (stoppedB thr) with
        | [] => []
        | _ :: _ =>
          (if durSec p ((p :: rest.takeWhile (stoppedB thr)).getLastD p) ≥ dur
            then [i] else []) ++
            closedStopRuns thr dur (rest.dropWhile (stoppedB thr))
              (i + (p :: rest.takeWhile (stoppedB thr)).length)
      else closedStopRuns thr dur rest (i + 1) := by
  simp [closedStopRuns]

/-- The loop of `detectStopPoints` while a run is open: it reports the run's
start index exactly when the run is later closed by a faster point and the
span from the run's start to the run's last stopped point reaches the
threshold, and then continues after the closing point. -/
theorem detectGo_inRun (thr dur : ℚ) :
    ∀ (rest : List TrajectoryPoint) (j : Nat) (sp q : TrajectoryPoint) (i : Nat),
      detectGo thr dur rest (some (j, sp)) (some q) i =
        match rest.dropWhile (stoppedB thr) with
        | [] => []
        | m :: after1 =>
          (if durSec sp ((rest.takeWhile (stoppedB thr)).getLastD q) ≥ dur
            then [j] else []) ++
            detectGo thr dur after1 none (some m)
              (i + (rest.takeWhile (stoppedB thr)).length + 1) := by
  intro rest
  induction rest with
  | nil => intro j sp q i; rfl
  | cons p rest ih =>
    intro j sp q i
    by_cases hp : pSpeed p ≤ thr
    · have hb : stoppedB thr p = true := by simp [stoppedB, hp]
      show (if pSpeed p ≤ thr then _ else _) = _
      rw [if_pos hp]
      dsimp only
      rw [ih j sp p (i + 1)]
      rw [List.dropWhile_cons_of_pos hb, List.takeWhile_cons_of_pos hb]
      cases hdw : rest.dropWhile (stoppedB thr) with
      | nil => rfl
      | cons m after1 =>
        rw [List.getLastD_cons]
        simp only [List.length_cons]
        rw [show i + 1 + (rest.takeWhile (stoppedB thr)).length + 1 =
          i + ((rest.takeWhile (stoppedB thr)).length + 1) + 1 from by omega]
    · have hb : stoppedB thr p = false := by simp [stoppedB, hp]
      show (if pSpeed p ≤ thr then _ else _) = _
      rw [if_neg hp]
      rw [List.dropWhile_cons_of_neg (by simp [hb]), List.takeWhile_cons_of_neg (by simp [hb])]
      dsimp only
      rw [show ([] : List TrajectoryPoint).getLastD q = q from rfl]
      by_cases hd : durSec sp q ≥ dur
      · rw [if_pos hd, if_pos hd]; rfl
      · rw [if_neg hd, if_neg hd]; rfl

/-- The loop of `detectStopPoints` outside a run agrees with the closed-run
reference function (the carried previous point is irrelevant there). -/
theorem detectGo_none_eq (thr dur : ℚ) :
    ∀ (n : Nat) (pts : List TrajectoryPoint), pts.length ≤ n →
      ∀ (prev : Option TrajectoryPoint) (i : Nat),
        detectGo thr dur pts none prev i = closedStopRuns thr dur pts i := by
  intro n
  induction n with
  | zero =>
    intro pts hn prev i
    have : pts = [] := List.eq_nil_of_length_eq_zero (Nat.le_zero.mp hn)
    subst this
    rw [closedStopRuns_nil]
    rfl
  | succ n ih =>
    intro pts hn prev i
    match pts with
    | [] => rw [closedStopRuns_nil]; rfl
    | p :: rest =>
      rw [closedStopRuns_cons]
      by_cases hp : pSpeed p ≤ thr
      · rw [if_pos hp]
        show detectGo thr dur (p :: rest) none prev i = _
        have hstep : detectGo thr dur (p :: rest) none prev i =
            detectGo thr dur rest (some (i, p)) (some p) (i + 1) := by
          show (if pSpeed p ≤ thr then _ else _) = _
          rw [if_pos hp]
        rw [hstep, detectGo_inRun]
        cases hdw : rest.dropWhile (stoppedB thr) with
        | nil => rfl
        | cons m after1 =>
          have hmlen : (m :: after1).length ≤ rest.length := by
            rw [← hdw]
            exact (List.dropWhile_sublist _).length_le
          have hrest : rest.length ≤ n := by
            simp only [List.length_cons] at hn; omega
          have ha : after1.length ≤ n := by
            simp only [List.length_cons] at hmlen; omega
          have hm : stoppedB thr m = false := by
            have := List.head?_dropWhile_not (stoppedB thr) rest
            rw [hdw] at this
            simpa using this
          have hmove : closedStopRuns thr dur (m :: after1)
              (i + (p :: rest.takeWhile (stoppedB thr)).length) =
                closedStopRuns thr dur after1
                  (i + (p :: rest.takeWhile (stoppedB thr)).length + 1) := by
            rw [closedStopRuns_cons, if_neg (by simpa [stoppedB] using hm)]
          rw [hmove, List.getLastD_cons]
          rw [← ih after1 ha (some m)
            (i + (p :: rest.takeWhile (stoppedB thr)).length + 1)]
          simp only [List.length_cons]
          rw [show i + 1 + (rest.takeWhile (stoppedB thr)).length + 1 =
            i + ((rest.takeWhile (stoppedB thr)).length + 1) + 1 from by omega]
      · rw [if_neg hp]
        have hstep : detectGo thr dur (p :: rest) none prev i =
            detectGo thr dur rest none (some p) (i + 1) := by
          show (if pSpeed p ≤ thr then _ else _) = _
          rw [if_neg hp]
        rw [hstep]
        exact ih rest (by simp only [List.length_cons] at hn; omega) (some p) (i + 1)

theorem dropWhile_eq_drop_len {α : Type _} (p : α → Bool) (l : List α) :
    l.dropWhile p = l.drop (l.takeWhile p).length := by
  induction l with
  | nil => rfl
  | cons a l ih =>
    by_cases ha : p a = true
    · rw [List.dropWhile_cons_of_pos ha, List.takeWhile_cons_of_pos ha]
      simpa using ih
    · rw [List.dropWhile_cons_of_neg (by simpa using ha),
        List.takeWhile_cons_of_neg (by simpa using ha)]
      rfl

/-- Every index reported by the closed-run reference function has a strictly
later, faster point in the sequence (the point that closed the run). -/
theorem closedStopRuns_mem (thr dur : ℚ) :
    ∀ (n : Nat) (pts : List TrajectoryPoint), pts.length ≤ n → ∀ (i j : Nat),
      j ∈ closedStopRuns thr dur pts i →
      ∃ d k, j = i + d ∧ d < k ∧
        ∃ (q : TrajectoryPoint) (tail : List TrajectoryPoint),
          pts.drop k = q :: tail ∧ thr < pSpeed q := by
  intro n
  induction n with
  | zero =>
    intro pts hn i j hj
    have : pts = [] := List.eq_nil_of_length_eq_zero (Nat.le_zero.mp hn)
    subst this
    rw [closedStopRuns_nil] at hj
    exact absurd hj (by simp)
  | succ n ih =>
    intro pts hn i j hj
    match pts with
    | [] =>
      rw [closedStopRuns_nil] at hj
      exact absurd hj (by simp)
    | p :: rest =>
      rw [closedStopRuns_cons] at hj
      by_cases hp : pSpeed p ≤ thr
      · rw [if_pos hp] at hj
        cases hdw : rest.dropWhile (stoppedB thr) with
        | nil => rw [hdw] at hj; exact absurd hj (by simp)
        | cons m after1 =>
          rw [hdw] at hj
          have hm : stoppedB thr m = false := by
            have := List.head?_dropWhile_not (stoppedB thr) rest
            rw [hdw] at this
            simpa using this
          have hmq : thr < pSpeed m := by
            by_contra hle
            rw [not_lt] at hle
            simp [stoppedB, hle] at hm
          have hsplit : rest = rest.takeWhile (stoppedB thr) ++ (m :: after1) := by
            rw [← hdw, List.takeWhile_append_dropWhile]
          rw [List.mem_append] at hj
          cases hj with
          | inl hjl =>
            have hji : j = i := by
              by_cases hc : durSec p ((p :: rest.takeWhile (stoppedB thr)).getLastD p) ≥ dur
              · rw [if_pos hc] at hjl; simpa using hjl
              · rw [if_neg hc] at hjl; exact absurd hjl (by simp)
            refine ⟨0, 1 + (rest.takeWhile (stoppedB thr)).length, by omega, by omega,
              m, after1, ?_, hmq⟩
            rw [show 1 + (rest.takeWhile (stoppedB thr)).length =
              (rest.takeWhile (stoppedB thr)).length + 1 from by omega]
            rw [List.drop_succ_cons, ← dropWhile_eq_drop_len, hdw]
          | inr hjr =>
            have hlen : (m :: after1).length ≤ rest.length := by
              rw [← hdw]
              exact (List.dropWhile_sublist _).length_le
            have ha : after1.length ≤ n := by
              simp only [List.length_cons] at hlen hn
              omega
            have hmem : j ∈ closedStopRuns thr dur after1
                (i + (p :: rest.takeWhile (stoppedB thr)).length + 1) := by
              have hstep : closedStopRuns thr dur (m :: after1)
                  (i + (p :: rest.takeWhile (stoppedB thr)).length) =
                    closedStopRuns thr dur after1
                      (i + (p :: rest.takeWhile (stoppedB thr)).length + 1) := by
                rw [closedStopRuns_cons, if_neg (by simpa [stoppedB] using hm)]
              rw [← hstep]
              exact hjr
            obtain ⟨d, k, hjd, hdk, q, tail, hdropk, hq⟩ :=
              ih after1 ha (i + (p :: rest.takeWhile (stoppedB thr)).length + 1) j hmem
            refine ⟨(p :: rest.takeWhile (stoppedB thr)).length + 1 + d,
              (p :: rest.takeWhile (stoppedB thr)).length + 1 + k,
              by omega, by omega, q, tail, ?_, hq⟩
            have hfull : p :: rest =
                (p :: rest.takeWhile (stoppedB thr)) ++ (m :: after1) := by
              rw [List.cons_append, ← hsplit]
            conv_lhs => rw [hfull]
            rw [show (p :: rest.takeWhile (stoppedB thr)).length + 1 + k =
              (p :: rest.takeWhile (stoppedB thr)).length + (k + 1) from by omega]
            rw [List.drop_append, List.drop_succ_cons]
            exact hdropk
      · rw [if_neg hp] at hj
        obtain ⟨d, k, hjd, hdk, q, tail, hdropk, hq⟩ :=
          ih rest (by simp only [List.length_cons] at hn; omega) (i + 1) j hj
        exact ⟨d + 1, k + 1, by omega, by omega, q, tail, by simpa using hdropk, hq⟩

/-- A stopped point (speed 0) at t = 0 ms. -/
def stopA : TrajectoryPoint := ⟨0, 0, none, 0, some 0, none, none⟩

/-- A stopped point at t = 70000 ms. -/
def stopB : TrajectoryPoint := ⟨0, 0, none, 70000, some 0, none, none⟩

/-- A stopped point at t = 30000 ms. -/
def stopC : TrajectoryPoint := ⟨0, 0, none, 30000, some 0, none, none⟩

/-- A stopped point at t = 65000 ms. -/
def stopD : TrajectoryPoint := ⟨0, 0, none, 65000, some 0, none, none⟩

/-- A moving point (speed 5 m/s) at t = 71000 ms. -/
def moveE : TrajectoryPoint := ⟨0, 0, none, 71000, some 5, none, none⟩

/-- C9 (amended): `detectStopPoints` reports exactly the maximal runs of
consecutive stopped points that are *closed* by a later faster point and
whose time span (last stopped timestamp − first stopped timestamp) is at
least the duration threshold, each by the index of its first point; runs
with a shorter span, and the run still open at the end of input, are
discarded. -/
theorem detectStops_eq_closed_runs (points : List TrajectoryPoint) (thr dur : ℚ) :
    detectStopPoints points thr dur = closedStopRuns thr dur points 0 :=
  detectGo_none_eq thr dur points.length points (le_refl _) none 0

/-- C9 counterexample: a maximal run of stopped points spanning 70 s ≥ 60 s
(the whole input, hence open at the end) is *not* reported: the claim's
"reports exactly the maximal runs … whose time span ≥ minDurationSeconds" is
false for a run that reaches the end of input. -/
theorem trailing_sixty_second_run_unreported :
    detectStopPoints [stopA, stopB] (mkRat 1 2) 60 = [] ∧
      pSpeed stopA ≤ mkRat 1 2 ∧ pSpeed stopB ≤ mkRat 1 2 ∧ durSec stopA stopB ≥ 60 := by
  decide

/-- C10 (amended): a run still open at the end of input is never evaluated
(with the last point as provisional end or otherwise): every index
`detectStopPoints` reports is followed by a strictly later point whose speed
exceeds the threshold — the faster point that closed the run — which a
trailing open run does not have. -/
theorem reported_runs_are_closed (points : List TrajectoryPoint) (thr dur : ℚ)
    (j : Nat) (h : j ∈ detectStopPoints points thr dur) :
    ∃ k, j < k ∧ ∃ (q : TrajectoryPoint) (tail : List TrajectoryPoint),
      points.drop k = q :: tail ∧ thr < pSpeed q := by
  unfold detectStopPoints at h
  rw [detectGo_none_eq thr dur points.length points (le_refl _) none 0] at h
  obtain ⟨d, k, hjd, hdk, q, tail, hdrop, hq⟩ :=
    closedStopRuns_mem thr dur points.length points (le_refl _) 0 j h
  exact ⟨k, by omega, q, tail, hdrop, hq⟩

/-- Witness for C10 (amended): the run reported at index 0 is closed by the
faster point `moveE` later in the sequence. -/
theorem reported_runs_are_closed_witness :
    ∃ k, 0 < k ∧ ∃ (q : TrajectoryPoint) (tail : List TrajectoryPoint),
      ([stopA, stopB, moveE].drop k) = q :: tail ∧ (mkRat 1 2 : ℚ) < pSpeed q :=
  reported_runs_are_closed [stopA, stopB, moveE] (mkRat 1 2) 60 0 (by decide)

/-- C10 counterexample: an input ending in a stopped run spanning 65 s ≥
60 s (open at the end of input) reports nothing at all — the trailing run is
not evaluated against the last point as a provisional end, it is simply
discarded. -/
theorem open_trailing_run_not_provisionally_evaluated :
    detectStopPoints [stopA, stopC, stopD] (mkRat 1 2) 60 = [] ∧
      pSpeed stopA ≤ mkRat 1 2 ∧ pSpeed stopC ≤ mkRat 1 2 ∧ pSpeed stopD ≤ mkRat 1 2 ∧
      durSec stopA stopD ≥ 60 := by
  decide

end KompAgent
